import Mathlib

/-!
Verification of the realtime meeting-translator audio pipeline
(offscreen document: PCM chunker, resampler, float→int16 conversion,
transcript reconciliation, opus fallback session logic).

Byte buffers are modelled as `List Nat`, audio samples as `ℚ` (exact
arithmetic standing in for JS numbers), and JS objects used as counters
as insertion-ordered association lists, matching `Object.keys` order for
non-index string keys.
-/

namespace Gmeet

/-! ### Constants from the source -/

def TARGET_SAMPLE_RATE : Nat := 16000

def PCM_TARGET_CHUNK_BYTES : Nat := 3200

/-! ### JS numeric primitives

`Math.round` rounds half toward +∞; `DataView.setInt16` converts its
argument with truncation toward zero and stores it modulo 2^16. -/

def jsRound (q : ℚ) : ℤ := (q + 1/2).floor

def truncQ (q : ℚ) : ℤ := if q < 0 then ⌈q⌉ else ⌊q⌋

/-! ### downsampleBuffer -/

/-- Body of `while (offsetResult < result.length)` in `downsampleBuffer`:
`remaining` counts the iterations left (`result.length - offsetResult`),
`offsetBuffer` is threaded exactly as in the source. -/
def downsampleLoop (buffer : List ℚ) (ratio : ℚ) :
    Nat → Nat → Nat → List ℚ
  | _, _, 0 => []
  | offsetResult, offsetBuffer, remaining + 1 =>
    let nextOffsetBuffer : Nat := (jsRound (((offsetResult : ℚ) + 1) * ratio)).toNat
    let window := (buffer.drop offsetBuffer).take (nextOffsetBuffer - offsetBuffer)
    (window.sum / (if window.length = 0 then 1 else (window.length : ℚ)))
      :: downsampleLoop buffer ratio (offsetResult + 1) nextOffsetBuffer remaining

def downsampleBuffer (buffer : List ℚ) (sampleRate outSampleRate : Nat) :
    Except String (List ℚ) :=
  if outSampleRate = sampleRate then Except.ok buffer
  else if sampleRate < outSampleRate then
    Except.error "Downsampling rate should be smaller than original"
  else
    let ratio : ℚ := (sampleRate : ℚ) / (outSampleRate : ℚ)
    let newLength : Nat := (jsRound ((buffer.length : ℚ) / ratio)).toNat
    Except.ok (downsampleLoop buffer ratio 0 0 newLength)

/-- The proportional input window of output sample `k`: source samples from
`round(k·ratio)` (inclusive) to `round((k+1)·ratio)` (exclusive), clipped to
the buffer. -/
def windowAt (buffer : List ℚ) (ratio : ℚ) (k : Nat) : List ℚ :=
  (buffer.drop ((jsRound ((k : ℚ) * ratio)).toNat)).take
    ((jsRound (((k : ℚ) + 1) * ratio)).toNat - (jsRound ((k : ℚ) * ratio)).toNat)

/-! ### floatTo16BitPCM -/

def clampUnit (x : ℚ) : ℚ := max (-1) (min 1 x)

/-- One sample of `floatTo16BitPCM`: clamp to [-1,1], scale negative values
by 0x8000 and non-negative ones by 0x7fff, then convert as `setInt16` does. -/
def float16Sample (x : ℚ) : ℤ :=
  let s := clampUnit x
  if s < 0 then truncQ (s * 32768) else truncQ (s * 32767)

/-- Little-endian byte pair stored by `view.setInt16 (offset, v, true)`. -/
def int16Bytes (v : ℤ) : List Nat :=
  let u := (v % 65536).toNat
  [u % 256, u / 256]

def floatTo16BitPCM (l : List ℚ) : List Nat :=
  (l.map (fun x => int16Bytes (float16Sample x))).flatten

/-! ### enqueuePcm (the chunker) -/

structure PcmState where
  pcmQueue : List (List Nat)
  pcmBytesPending : Nat
deriving DecidableEq

def initPcmState : PcmState := ⟨[], 0⟩

def sumQ (q : List (List Nat)) : Nat := (q.map List.length).sum

/-- Inner `while (toSend > 0 && pcmQueue.length)` loop of `enqueuePcm`:
take bytes from the head buffers, splitting the head across the chunk
boundary when necessary (the partial remainder stays queued). -/
def drainBytes : Nat → List (List Nat) → List Nat × List (List Nat)
  | _, [] => ([], [])
  | toSend, h :: t =>
    if toSend = 0 then ([], h :: t)
    else if toSend < h.length then (h.take toSend, h.drop toSend :: t)
    else
      let r := drainBytes (toSend - h.length) t
      (h ++ r.1, r.2)

/-- Outer `while (pcmBytesPending >= PCM_TARGET_CHUNK_BYTES)` loop.
`out` is a zero-initialised `Uint8Array(PCM_TARGET_CHUNK_BYTES)`, hence the
zero padding when fewer bytes were written.  `wsOpen` models
`ws && ws.readyState === WebSocket.OPEN`: the chunk is sent only when open.
Returns (chunks sent, pcmBytesPending, pcmQueue). -/
def drainLoop (wsOpen : Bool) (pending : Nat) (q : List (List Nat)) :
    List (List Nat) × Nat × List (List Nat) :=
  if h : PCM_TARGET_CHUNK_BYTES ≤ pending then
    let r := drainBytes PCM_TARGET_CHUNK_BYTES q
    let chunk := r.1 ++ List.replicate (PCM_TARGET_CHUNK_BYTES - r.1.length) 0
    let rest := drainLoop wsOpen (pending - PCM_TARGET_CHUNK_BYTES) r.2
    ((if wsOpen then chunk :: rest.1 else rest.1), rest.2)
  else ([], pending, q)
termination_by pending
decreasing_by
  exact Nat.sub_lt (Nat.lt_of_lt_of_le (by norm_num [PCM_TARGET_CHUNK_BYTES]) h)
    (by norm_num [PCM_TARGET_CHUNK_BYTES])

def enqueuePcm (wsOpen : Bool) (s : PcmState) (buf : List Nat) :
    List (List Nat) × PcmState :=
  let q := s.pcmQueue ++ [buf]
  let p := s.pcmBytesPending + buf.length
  let r := drainLoop wsOpen p q
  (r.1, ⟨r.2.2, r.2.1⟩)

/-- Feed a sequence of byte ranges to the chunker (connection open),
collecting every chunk it sends, in order. -/
def runEnqueue (inputs : List (List Nat)) : List (List Nat) × PcmState :=
  inputs.foldl (fun acc buf =>
    let r := enqueuePcm true acc.2 buf
    (acc.1 ++ r.1, r.2)) ([], initPcmState)

/-! ### The worklet-port message handler (`processorNode.port.onmessage`) -/

def portOnMessage (wsOpen : Bool) (modePcm : Bool) (contextSampleRate : Nat)
    (input : Option (List ℚ)) (s : PcmState) :
    Except String (List (List Nat) × PcmState) :=
  match input with
  | none => Except.ok ([], s)
  | some inp =>
    if wsOpen = false then Except.ok ([], s)
    else if modePcm = false then Except.ok ([], s)
    else
      match downsampleBuffer inp contextSampleRate TARGET_SAMPLE_RATE with
      | Except.error e => Except.error e
      | Except.ok down => Except.ok (enqueuePcm wsOpen s (floatTo16BitPCM down))

/-! ### JS object counters and `Object.keys(...).reduce(...)`

A JS object used as a counter is an insertion-ordered association list:
`obj[k] = (obj[k] || 0) + 1` bumps an existing entry in place or appends a
fresh one, and `Object.keys` returns the keys in insertion order (the keys
used here, `"Speaker n"` and language codes, are not array indices). -/

def bumpCount {α : Type} [DecidableEq α] : List (α × Nat) → α → List (α × Nat)
  | [], k => [(k, 1)]
  | (k0, c) :: rest, k =>
    if k0 = k then (k0, c + 1) :: rest else (k0, c) :: bumpCount rest k

def countOf {α : Type} [DecidableEq α] (counts : List (α × Nat)) (k : α) : Nat :=
  match counts.find? (fun p => decide (p.1 = k)) with
  | some p => p.2
  | none => 0

def objKeys {α : Type} (counts : List (α × Nat)) : List α := counts.map Prod.fst

/-- `(a, b) => counts[a] > counts[b] ? a : b` -/
def pickMax {α : Type} (cnt : α → Nat) (a b : α) : α :=
  if cnt b < cnt a then a else b

/-- `Object.keys(counts).reduce(f, Object.keys(counts)[0])`: with an initial
value, `reduce` folds over every element, the first one included. -/
def reduceMaxKey {α : Type} [DecidableEq α] (counts : List (α × Nat)) : Option α :=
  match objKeys counts with
  | [] => none
  | k0 :: rest => some (List.foldl (pickMax (countOf counts)) k0 (k0 :: rest))

/-- `Object.keys(counts).reduce(f)`: without an initial value, `reduce`
starts from the first element and folds over the rest. -/
def reduceMaxKeyNoInit {α : Type} [DecidableEq α] (counts : List (α × Nat)) : Option α :=
  match objKeys counts with
  | [] => none
  | k0 :: rest => some (List.foldl (pickMax (countOf counts)) k0 rest)

/-! Specification-side formulations of the counting selectors. -/

def buildCounts {α : Type} [DecidableEq α] (l : List α) : List (α × Nat) :=
  l.foldl bumpCount []

/-- Keys in first-encounter (insertion) order. -/
def keysInOrder {α : Type} [DecidableEq α] (l : List α) : List α :=
  l.foldl (fun acc a => if a ∈ acc then acc else acc ++ [a]) []

def isMaxIn {α : Type} (cnt : α → Nat) (keys : List α) (k : α) : Bool :=
  keys.all (fun k2 => cnt k2 ≤ cnt k)

/-- The tag with the highest occurrence count in `tags`, ties broken by
taking the LAST tied key in first-encounter order. -/
def specLastMax {α : Type} [DecidableEq α] (tags : List α) : Option α :=
  let keys := keysInOrder tags
  (keys.filter (isMaxIn (fun k => tags.count k) keys)).getLast?

/-- The selection rule in the specification's words: highest occurrence
count, ties broken first-encountered-first-selected. -/
def specFirstMax {α : Type} [DecidableEq α] (tags : List α) : Option α :=
  let keys := keysInOrder tags
  (keys.filter (isMaxIn (fun k => tags.count k) keys)).head?

/-! ### Transcript event reconciliation (`ws.onmessage`, Results branch) -/

structure DgWord where
  speaker : Option Nat
  language : Option String
deriving DecidableEq

structure DgAlt where
  transcript : String
  words : List DgWord
  languages : Option (List String)
deriving DecidableEq

def speakerKey (n : Nat) : String := "Speaker " ++ toString n

/-- The `"Speaker n"` strings of the words whose `speaker` is defined, in
word order. -/
def speakerTags (ws : List DgWord) : List String :=
  ws.filterMap (fun w => w.speaker.map speakerKey)

def speakerCounts (ws : List DgWord) : List (String × Nat) :=
  ws.foldl (fun acc w =>
    match w.speaker with
    | some n => bumpCount acc (speakerKey n)
    | none => acc) []

/-- Speaker resolution: `let speaker = "Unknown Speaker"; if (alt.words &&
alt.words.length > 0) { ... if (dominantSpeaker) speaker = dominantSpeaker }`
(a string is truthy iff nonempty). -/
def resolveSpeaker (ws : List DgWord) : String :=
  if 0 < ws.length then
    match reduceMaxKey (speakerCounts ws) with
    | some k => if k = "" then "Unknown Speaker" else k
    | none => "Unknown Speaker"
  else "Unknown Speaker"

/-- The language tags of the words whose `language` is truthy, in word
order (`if (word.language)` skips missing and empty tags). -/
def languageTags (ws : List DgWord) : List String :=
  ws.filterMap (fun w =>
    match w.language with
    | some l => if l = "" then none else some l
    | none => none)

def languageCounts (ws : List DgWord) : List (String × Nat) :=
  ws.foldl (fun acc w =>
    match w.language with
    | some l => if l = "" then acc else bumpCount acc l
    | none => acc) []

/-- Language resolution: default `'en'`, replaced by
`alt.languages[0] || 'en'` when an alternative-level languages array is
present, then overridden by the dominant word-level tag when any word
carries a language. -/
def resolveLanguage (alt : DgAlt) : String :=
  let d1 : String :=
    match alt.languages with
    | some ls => if ls.head?.getD "" = "" then "en" else ls.head?.getD ""
    | none => "en"
  if 0 < alt.words.length then
    let lc := languageCounts alt.words
    if 0 < lc.length then (reduceMaxKeyNoInit lc).getD d1 else d1
  else d1

structure Utterance where
  isFinal : Bool
  text : String
  speaker : String
  language : String
  detectedLanguages : List String
deriving DecidableEq

/-- The Results branch of `ws.onmessage`: empty transcript yields nothing,
otherwise one utterance record is posted to the background port. -/
def processResults (alt : DgAlt) (isFinal : Bool) : Option Utterance :=
  if alt.transcript = "" then none
  else some
    { isFinal := isFinal
      text := alt.transcript
      speaker := resolveSpeaker alt.words
      language := resolveLanguage alt
      detectedLanguages := alt.languages.getD [] }

/-! ### Transport session fallback (`ws.onclose` / `startOpusFallback`) -/

inductive Mode
  | pcm
  | opus
deriving DecidableEq

structure Session where
  currentMode : Mode
  triedOpusFallback : Bool
deriving DecidableEq

def initSession : Session := ⟨Mode.pcm, false⟩

inductive CloseAction
  | reconnectOpus
  | reportOnly
deriving DecidableEq

/-- `ws.onclose`: when the close happens in pcm mode and the fallback has
not been consumed, consume it and start the opus fallback (which sets
`currentMode = 'opus'`); otherwise the close is only reported. -/
def onCloseStep (s : Session) : Session × CloseAction :=
  if s.currentMode = Mode.pcm ∧ s.triedOpusFallback = false then
    (⟨Mode.opus, true⟩, CloseAction.reconnectOpus)
  else (s, CloseAction.reportOnly)

/-- A sequence of `n` consecutive connection closes. -/
def runCloses : Session → Nat → Session × List CloseAction
  | s, 0 => (s, [])
  | s, n + 1 =>
    let r := onCloseStep s
    let rest := runCloses r.1 n
    (rest.1, r.2 :: rest.2)

/-! ## Chunker lemmas -/

theorem sumQ_eq_length_flatten (q : List (List Nat)) : sumQ q = q.flatten.length := by
  simp [sumQ]

theorem drainBytes_spec (q : List (List Nat)) : ∀ n, n ≤ sumQ q →
    (drainBytes n q).1 = q.flatten.take n ∧ (drainBytes n q).2.flatten = q.flatten.drop n := by
  induction q with
  | nil =>
    intro n h
    have hn : n = 0 := by simpa [sumQ] using h
    subst hn
    simp [drainBytes]
  | cons h0 t ih =>
    intro n h
    have hsum : sumQ (h0 :: t) = h0.length + sumQ t := by simp [sumQ]
    by_cases h1 : n = 0
    · subst h1; simp [drainBytes]
    · by_cases h2 : n < h0.length
      · simp [drainBytes, h1, h2, List.take_append_eq_append_take,
          List.drop_append_eq_append_drop, Nat.sub_eq_zero_of_le (le_of_lt h2)]
      · push_neg at h2
        have hle : n - h0.length ≤ sumQ t := by omega
        obtain ⟨ih1, ih2⟩ := ih (n - h0.length) hle
        have hnlt : ¬ n < h0.length := by omega
        simp only [drainBytes, h1, if_false, hnlt, List.flatten_cons]
        constructor
        · rw [List.take_append_eq_append_take, List.take_of_length_le h2, ih1]
        · rw [List.drop_append_eq_append_drop, List.drop_eq_nil_of_le h2, ih2,
            List.nil_append]

theorem drainLoop_spec : ∀ (p : Nat) (q : List (List Nat)), p = sumQ q →
    ((drainLoop true p q).1.map List.length =
        List.replicate (drainLoop true p q).1.length PCM_TARGET_CHUNK_BYTES) ∧
    (drainLoop true p q).1.flatten ++ (drainLoop true p q).2.2.flatten = q.flatten ∧
    (drainLoop true p q).2.1 = sumQ (drainLoop true p q).2.2 ∧
    (drainLoop true p q).2.1 < PCM_TARGET_CHUNK_BYTES := by
  intro p
  induction p using Nat.strong_induction_on with
  | _ p ih =>
    intro q hpq
    by_cases hc : PCM_TARGET_CHUNK_BYTES ≤ p
    · have hbytes := drainBytes_spec q PCM_TARGET_CHUNK_BYTES (by omega)
      have hflen : q.flatten.length = p := by rw [hpq, sumQ_eq_length_flatten]
      have hlen1 : (drainBytes PCM_TARGET_CHUNK_BYTES q).1.length = PCM_TARGET_CHUNK_BYTES := by
        rw [hbytes.1, List.length_take]
        omega
      have hsum2 : sumQ (drainBytes PCM_TARGET_CHUNK_BYTES q).2 = p - PCM_TARGET_CHUNK_BYTES := by
        rw [sumQ_eq_length_flatten, hbytes.2, List.length_drop, hflen]
      have hrec := ih (p - PCM_TARGET_CHUNK_BYTES)
        (by have : 0 < PCM_TARGET_CHUNK_BYTES := by norm_num [PCM_TARGET_CHUNK_BYTES]
            omega)
        (drainBytes PCM_TARGET_CHUNK_BYTES q).2 hsum2.symm
      rw [drainLoop, dif_pos hc]
      simp only [if_true, List.map_cons, List.length_cons, List.flatten_cons,
        List.replicate_succ, List.length_append, hlen1, Nat.sub_self,
        List.replicate_zero, List.append_nil]
      refine ⟨?_, ?_, hrec.2.2⟩
      · rw [hrec.1]
      · rw [List.append_assoc, hrec.2.1, hbytes.1, hbytes.2]
        exact List.take_append_drop _ _
    · rw [drainLoop, dif_neg hc]
      refine ⟨by simp, by simp, hpq, ?_⟩
      show p < PCM_TARGET_CHUNK_BYTES
      omega

theorem drainLoop_closed : ∀ (p : Nat) (q : List (List Nat)),
    (drainLoop false p q).1 = [] ∧ (drainLoop false p q).2 = (drainLoop true p q).2 := by
  intro p
  induction p using Nat.strong_induction_on with
  | _ p ih =>
    intro q
    by_cases hc : PCM_TARGET_CHUNK_BYTES ≤ p
    · have hrec := ih (p - PCM_TARGET_CHUNK_BYTES)
        (by have : 0 < PCM_TARGET_CHUNK_BYTES := by norm_num [PCM_TARGET_CHUNK_BYTES]
            omega)
        (drainBytes PCM_TARGET_CHUNK_BYTES q).2
      rw [drainLoop, dif_pos hc, drainLoop, dif_pos hc]
      simp only [if_false, if_true]
      exact ⟨hrec.1, hrec.2⟩
    · rw [drainLoop, dif_neg hc, drainLoop, dif_neg hc]
      exact ⟨rfl, rfl⟩

theorem sumQ_append_single (q : List (List Nat)) (b : List Nat) :
    sumQ (q ++ [b]) = sumQ q + b.length := by
  simp [sumQ]

theorem enqueuePcm_step (s : PcmState) (buf : List Nat)
    (hinv : s.pcmBytesPending = sumQ s.pcmQueue) :
    (enqueuePcm true s buf).1.map List.length =
      List.replicate (enqueuePcm true s buf).1.length PCM_TARGET_CHUNK_BYTES ∧
    (enqueuePcm true s buf).1.flatten ++ (enqueuePcm true s buf).2.pcmQueue.flatten =
      s.pcmQueue.flatten ++ buf ∧
    (enqueuePcm true s buf).2.pcmBytesPending =
      sumQ (enqueuePcm true s buf).2.pcmQueue ∧
    (enqueuePcm true s buf).2.pcmBytesPending < PCM_TARGET_CHUNK_BYTES := by
  have hpq : s.pcmBytesPending + buf.length = sumQ (s.pcmQueue ++ [buf]) := by
    rw [sumQ_append_single, hinv]
  have h := drainLoop_spec (s.pcmBytesPending + buf.length) (s.pcmQueue ++ [buf]) hpq
  have hfl : (s.pcmQueue ++ [buf]).flatten = s.pcmQueue.flatten ++ buf := by
    simp
  rw [hfl] at h
  exact ⟨h.1, h.2.1, h.2.2.1, h.2.2.2⟩

theorem runEnqueue_inv (inputs : List (List Nat)) :
    (runEnqueue inputs).1.map List.length =
      List.replicate (runEnqueue inputs).1.length PCM_TARGET_CHUNK_BYTES ∧
    (runEnqueue inputs).1.flatten ++ (runEnqueue inputs).2.pcmQueue.flatten =
      inputs.flatten ∧
    (runEnqueue inputs).2.pcmBytesPending = sumQ (runEnqueue inputs).2.pcmQueue ∧
    (runEnqueue inputs).2.pcmBytesPending < PCM_TARGET_CHUNK_BYTES := by
  induction inputs using List.reverseRecOn with
  | nil =>
    simp [runEnqueue, initPcmState, sumQ, PCM_TARGET_CHUNK_BYTES]
  | append_singleton l b ihl =>
    have hfold : runEnqueue (l ++ [b]) =
        ((runEnqueue l).1 ++ (enqueuePcm true (runEnqueue l).2 b).1,
          (enqueuePcm true (runEnqueue l).2 b).2) := by
      simp [runEnqueue, List.foldl_append]
    obtain ⟨ih1, ih2, ih3, ih4⟩ := ihl
    obtain ⟨s1, s2, s3, s4⟩ := enqueuePcm_step (runEnqueue l).2 b ih3
    rw [hfold]
    refine ⟨?_, ?_, s3, s4⟩
    · simp only [List.map_append, List.length_append, ih1, s1]
      rw [List.replicate_add]
    · simp only [List.flatten_append]
      rw [List.append_assoc, s2, ← List.append_assoc, ih2]
      simp

/-- C1: for every sequence of byte ranges fed to `enqueuePcm`, every emitted
chunk has exactly `PCM_TARGET_CHUNK_BYTES` bytes, the concatenation of the
emitted chunks followed by the queued remainder is exactly the concatenation
of the inputs (no loss, no duplication, order preserved), and the
concatenation of the emitted chunks is the concatenation of the inputs
truncated to the largest multiple of the chunk size. -/
theorem chunker_concat_correct (inputs : List (List Nat)) :
    (runEnqueue inputs).1.map List.length =
      List.replicate (runEnqueue inputs).1.length PCM_TARGET_CHUNK_BYTES ∧
    (runEnqueue inputs).1.flatten ++ (runEnqueue inputs).2.pcmQueue.flatten =
      inputs.flatten ∧
    (runEnqueue inputs).1.flatten =
      inputs.flatten.take
        (PCM_TARGET_CHUNK_BYTES * (inputs.flatten.length / PCM_TARGET_CHUNK_BYTES)) := by
  obtain ⟨h1, h2, h3, h4⟩ := runEnqueue_inv inputs
  refine ⟨h1, h2, ?_⟩
  have hchunklen : (runEnqueue inputs).1.flatten.length =
      (runEnqueue inputs).1.length * PCM_TARGET_CHUNK_BYTES := by
    rw [List.length_flatten, h1, List.sum_replicate, smul_eq_mul]
  have hrem : (runEnqueue inputs).2.pcmQueue.flatten.length < PCM_TARGET_CHUNK_BYTES := by
    rw [← sumQ_eq_length_flatten, ← h3]
    exact h4
  have htot : inputs.flatten.length =
      (runEnqueue inputs).1.length * PCM_TARGET_CHUNK_BYTES +
        (runEnqueue inputs).2.pcmQueue.flatten.length := by
    rw [← h2, List.length_append, hchunklen]
  have hpos : 0 < PCM_TARGET_CHUNK_BYTES := by norm_num [PCM_TARGET_CHUNK_BYTES]
  have hdiv : inputs.flatten.length / PCM_TARGET_CHUNK_BYTES =
      (runEnqueue inputs).1.length := by
    rw [htot, Nat.mul_comm, Nat.mul_add_div hpos, Nat.div_eq_of_lt hrem, Nat.add_zero]
  rw [hdiv, ← h2, Nat.mul_comm, ← hchunklen, List.take_left]

/-- C9: the pending-byte counter always equals the total number of queued
bytes, and after any `enqueuePcm` call (from any state satisfying that data
invariant, and in particular after any sequence of calls from the initial
state) the pending count is strictly below the chunk size: the queue exceeds
the chunk size only transiently, inside a call. -/
theorem pending_queue_invariant :
    (∀ (s : PcmState) (buf : List Nat), s.pcmBytesPending = sumQ s.pcmQueue →
      (enqueuePcm true s buf).2.pcmBytesPending =
          sumQ (enqueuePcm true s buf).2.pcmQueue ∧
      (enqueuePcm true s buf).2.pcmBytesPending < PCM_TARGET_CHUNK_BYTES) ∧
    (∀ inputs : List (List Nat),
      (runEnqueue inputs).2.pcmBytesPending = sumQ (runEnqueue inputs).2.pcmQueue ∧
      (runEnqueue inputs).2.pcmBytesPending < PCM_TARGET_CHUNK_BYTES) :=
  ⟨fun s buf hinv => ⟨(enqueuePcm_step s buf hinv).2.2.1, (enqueuePcm_step s buf hinv).2.2.2⟩,
    fun inputs => ⟨(runEnqueue_inv inputs).2.2.1, (runEnqueue_inv inputs).2.2.2⟩⟩

/-- Witness for C9 at a concrete state and buffer. -/
theorem pending_queue_invariant_witness :
    (enqueuePcm true ⟨[[1, 2]], 2⟩ [3]).2.pcmBytesPending =
      sumQ (enqueuePcm true ⟨[[1, 2]], 2⟩ [3]).2.pcmQueue ∧
    (enqueuePcm true ⟨[[1, 2]], 2⟩ [3]).2.pcmBytesPending < PCM_TARGET_CHUNK_BYTES :=
  pending_queue_invariant.1 ⟨[[1, 2]], 2⟩ [3] (by simp [sumQ])

/-- C8: while the connection is not open, chunk sends are no-ops: the drain
loop sends nothing yet leaves exactly the state it would leave when open
(chunks are consumed and dropped, not queued or retried), `enqueuePcm`
likewise, and the worklet-port handler does nothing at all. -/
theorem send_noop_when_not_open :
    (∀ (p : Nat) (q : List (List Nat)),
      (drainLoop false p q).1 = [] ∧ (drainLoop false p q).2 = (drainLoop true p q).2) ∧
    (∀ (s : PcmState) (buf : List Nat),
      (enqueuePcm false s buf).1 = [] ∧
      (enqueuePcm false s buf).2 = (enqueuePcm true s buf).2) ∧
    (∀ (modePcm : Bool) (contextSampleRate : Nat) (input : Option (List ℚ)) (s : PcmState),
      portOnMessage false modePcm contextSampleRate input s = Except.ok ([], s)) := by
  refine ⟨drainLoop_closed, fun s buf => ?_, fun modePcm rate input s => ?_⟩
  · have h := drainLoop_closed (s.pcmBytesPending + buf.length) (s.pcmQueue ++ [buf])
    exact ⟨h.1, by simp only [enqueuePcm, h.2]⟩
  · cases input <;> simp [portOnMessage]

/-- C3: from a fresh capture session, any run of consecutive connection
closes produces exactly one opus-fallback reconnection (on the first close)
followed only by report-only closes; the fallback flag is consumed and the
mode stays opus. -/
theorem fallback_at_most_once (n : Nat) :
    (runCloses initSession n).2.count CloseAction.reconnectOpus ≤ 1 ∧
    (runCloses initSession n).2 =
      (match n with
        | 0 => []
        | k + 1 => CloseAction.reconnectOpus :: List.replicate k CloseAction.reportOnly) ∧
    (runCloses initSession n).1 =
      (match n with
        | 0 => initSession
        | _ + 1 => ⟨Mode.opus, true⟩) := by
  have hstay : ∀ k, runCloses ⟨Mode.opus, true⟩ k =
      (⟨Mode.opus, true⟩, List.replicate k CloseAction.reportOnly) := by
    intro k
    induction k with
    | zero => simp [runCloses]
    | succ k ih => simp [runCloses, onCloseStep, ih, List.replicate_succ]
  cases n with
  | zero => simp [runCloses]
  | succ k =>
    have hfirst : onCloseStep initSession = (⟨Mode.opus, true⟩, CloseAction.reconnectOpus) := by
      simp [onCloseStep, initSession]
    simp [runCloses, hfirst, hstay k, List.count_cons, List.count_replicate]

/-! ## Counter-object lemmas -/

theorem countOf_cons {α : Type} [DecidableEq α] (k0 : α) (c0 : Nat)
    (rest : List (α × Nat)) (k : α) :
    countOf ((k0, c0) :: rest) k = if k0 = k then c0 else countOf rest k := by
  by_cases h : k0 = k
  · simp [countOf, List.find?_cons, h]
  · simp [countOf, List.find?_cons, h]

theorem countOf_bumpCount {α : Type} [DecidableEq α] (c : List (α × Nat)) (a k : α) :
    countOf (bumpCount c a) k = countOf c k + (if a = k then 1 else 0) := by
  induction c with
  | nil =>
    by_cases h : a = k <;> simp [bumpCount, countOf_cons, countOf, h]
  | cons hd tl ih =>
    obtain ⟨k0, c0⟩ := hd
    by_cases h0 : k0 = a
    · subst h0
      by_cases h1 : k0 = k <;> simp [bumpCount, countOf_cons, h1]
    · by_cases h1 : k0 = k
      · subst h1
        have : ¬ a = k0 := fun h => h0 h.symm
        simp [bumpCount, h0, countOf_cons, this]
      · simp [bumpCount, h0, countOf_cons, h1, ih]

theorem countOf_buildCounts_aux {α : Type} [DecidableEq α] (l : List α) :
    ∀ (c : List (α × Nat)) (k : α),
      countOf (List.foldl bumpCount c l) k = countOf c k + l.count k := by
  induction l with
  | nil => intro c k; simp
  | cons a t ih =>
    intro c k
    rw [List.foldl_cons, ih, countOf_bumpCount, List.count_cons]
    by_cases h : a = k
    · simp [h]
      omega
    · simp [h]

theorem countOf_buildCounts {α : Type} [DecidableEq α] (l : List α) (k : α) :
    countOf (buildCounts l) k = l.count k := by
  rw [buildCounts, countOf_buildCounts_aux]
  simp [countOf]

theorem objKeys_bumpCount {α : Type} [DecidableEq α] (c : List (α × Nat)) (a : α) :
    objKeys (bumpCount c a) =
      if a ∈ objKeys c then objKeys c else objKeys c ++ [a] := by
  induction c with
  | nil => simp [bumpCount, objKeys]
  | cons hd tl ih =>
    obtain ⟨k0, c0⟩ := hd
    by_cases h : k0 = a
    · subst h
      simp [bumpCount, objKeys]
    · have h' : ¬ a = k0 := fun hh => h hh.symm
      simp only [objKeys, List.map_cons] at ih ⊢
      simp only [bumpCount, if_neg h, List.map_cons]
      rw [ih]
      by_cases hm : a ∈ List.map Prod.fst tl
      · simp [hm, h']
      · simp [hm, h']

theorem objKeys_buildCounts_aux {α : Type} [DecidableEq α] (l : List α) :
    ∀ c : List (α × Nat),
      objKeys (List.foldl bumpCount c l) =
        List.foldl (fun acc a => if a ∈ acc then acc else acc ++ [a]) (objKeys c) l := by
  induction l with
  | nil => intro c; rfl
  | cons a t ih =>
    intro c
    rw [List.foldl_cons, List.foldl_cons, ih, objKeys_bumpCount]

theorem objKeys_buildCounts {α : Type} [DecidableEq α] (l : List α) :
    objKeys (buildCounts l) = keysInOrder l := by
  rw [buildCounts, objKeys_buildCounts_aux]
  rfl

theorem keysInOrder_mem_aux {α : Type} [DecidableEq α] (l : List α) :
    ∀ (acc : List α) (x : α),
      x ∈ List.foldl (fun acc a => if a ∈ acc then acc else acc ++ [a]) acc l →
      x ∈ acc ∨ x ∈ l := by
  induction l with
  | nil => intro acc x h; exact Or.inl h
  | cons a t ih =>
    intro acc x h
    rw [List.foldl_cons] at h
    rcases ih _ x h with h1 | h2
    · by_cases hm : a ∈ acc
      · rw [if_pos hm] at h1
        exact Or.inl h1
      · rw [if_neg hm] at h1
        rcases List.mem_append.mp h1 with h3 | h4
        · exact Or.inl h3
        · simp at h4
          exact Or.inr (by simp [h4])
    · exact Or.inr (List.mem_cons_of_mem a h2)

theorem keysInOrder_subset {α : Type} [DecidableEq α] {l : List α} {x : α}
    (h : x ∈ keysInOrder l) : x ∈ l := by
  rcases keysInOrder_mem_aux l [] x h with h1 | h2
  · simp at h1
  · exact h2

theorem speakerCounts_eq_aux (ws : List DgWord) :
    ∀ c : List (String × Nat),
      ws.foldl (fun acc w => match w.speaker with
        | some n => bumpCount acc (speakerKey n)
        | none => acc) c = List.foldl bumpCount c (speakerTags ws) := by
  induction ws with
  | nil => intro c; rfl
  | cons w t ih =>
    intro c
    rw [List.foldl_cons]
    cases hs : w.speaker with
    | none =>
      simp only [hs]
      rw [ih]
      simp [speakerTags, List.filterMap_cons, hs]
    | some n =>
      simp only [hs]
      rw [ih]
      simp [speakerTags, List.filterMap_cons, hs]

theorem speakerCounts_eq (ws : List DgWord) :
    speakerCounts ws = buildCounts (speakerTags ws) := by
  rw [speakerCounts, speakerCounts_eq_aux]
  rfl

theorem languageCounts_eq_aux (ws : List DgWord) :
    ∀ c : List (String × Nat),
      ws.foldl (fun acc w => match w.language with
        | some l => if l = "" then acc else bumpCount acc l
        | none => acc) c = List.foldl bumpCount c (languageTags ws) := by
  induction ws with
  | nil => intro c; rfl
  | cons w t ih =>
    intro c
    rw [List.foldl_cons]
    cases hs : w.language with
    | none =>
      simp only [hs]
      rw [ih]
      simp [languageTags, List.filterMap_cons, hs]
    | some l =>
      by_cases hl : l = ""
      · simp only [hs, hl, if_pos rfl]
        rw [ih]
        simp [languageTags, List.filterMap_cons, hs, hl]
      · simp only [hs, if_neg hl]
        rw [ih]
        simp [languageTags, List.filterMap_cons, hs, hl]

theorem languageCounts_eq (ws : List DgWord) :
    languageCounts ws = buildCounts (languageTags ws) := by
  rw [languageCounts, languageCounts_eq_aux]
  rfl

/-! ## The `reduce` argmax selects the last maximal key -/

theorem foldl_pickMax_mem {α : Type} (cnt : α → Nat) (l : List α) :
    ∀ a, List.foldl (pickMax cnt) a l ∈ a :: l := by
  induction l with
  | nil => intro a; simp
  | cons b t ih =>
    intro a
    rw [List.foldl_cons]
    have hp : pickMax cnt a b = a ∨ pickMax cnt a b = b := by
      rw [pickMax]
      split
      · exact Or.inl rfl
      · exact Or.inr rfl
    rcases List.mem_cons.mp (ih (pickMax cnt a b)) with h1 | h2
    · rcases hp with hp | hp <;> rw [h1, hp] <;> simp
    · simp [List.mem_cons, h2]

theorem foldl_pickMax_lastMax {α : Type} (cnt : α → Nat) (a : α) (l : List α) :
    ((a :: l).filter (isMaxIn cnt (a :: l))).getLast? =
      some (List.foldl (pickMax cnt) a l) := by
  induction l using List.reverseRecOn with
  | nil => simp [isMaxIn]
  | append_singleton t b ih =>
    have hfold : List.foldl (pickMax cnt) a (t ++ [b]) =
        pickMax cnt (List.foldl (pickMax cnt) a t) b := by
      rw [List.foldl_append, List.foldl_cons, List.foldl_nil]
    set r := List.foldl (pickMax cnt) a t with hr
    have hrmem : r ∈ (a :: t).filter (isMaxIn cnt (a :: t)) :=
      List.mem_of_getLast?_eq_some ih
    have hrL : r ∈ a :: t := (List.mem_filter.mp hrmem).1
    have hrmax : ∀ y ∈ a :: t, cnt y ≤ cnt r := by
      have := (List.mem_filter.mp hrmem).2
      rw [isMaxIn, List.all_eq_true] at this
      intro y hy
      simpa using this y hy
    have hLcons : a :: (t ++ [b]) = (a :: t) ++ [b] := by simp
    rw [hLcons, hfold]
    have hrmem' : r ∈ (a :: t) ++ [b] :=
      List.mem_append.mpr (Or.inl hrL)
    by_cases hcb : cnt b < cnt r
    · -- the appended key loses: the filtered list is unchanged
      have hpick : pickMax cnt r b = r := by rw [pickMax, if_pos hcb]
      have hbfalse : isMaxIn cnt ((a :: t) ++ [b]) b = false := by
        apply Bool.eq_false_iff.mpr
        intro hall
        rw [isMaxIn, List.all_eq_true] at hall
        have := hall r hrmem'
        simp at this
        omega
      have hcong : ∀ x ∈ a :: t,
          isMaxIn cnt ((a :: t) ++ [b]) x = isMaxIn cnt (a :: t) x := by
        intro x hx
        rw [isMaxIn, isMaxIn, List.all_append]
        have hb1 : ([b]).all (fun k2 => decide (cnt k2 ≤ cnt x)) =
            decide (cnt b ≤ cnt x) := by simp
        rw [hb1]
        cases hLx : (a :: t).all (fun k2 => decide (cnt k2 ≤ cnt x)) with
        | false => simp
        | true =>
          have hxr : cnt r ≤ cnt x := by
            rw [List.all_eq_true] at hLx
            simpa using hLx r hrL
          simp only [Bool.true_and, decide_eq_true_eq]
          omega
      have hfb : List.filter (isMaxIn cnt ((a :: t) ++ [b])) [b] = [] := by
        simp only [List.filter_cons, List.filter_nil]
        rw [hbfalse]
        simp
      rw [List.filter_append, List.filter_congr hcong, hfb, List.append_nil, ih, hpick]
    · -- the appended key wins or ties: it becomes the selected key
      push_neg at hcb
      have hpick : pickMax cnt r b = b := by
        rw [pickMax, if_neg (by omega)]
      have hbtrue : isMaxIn cnt ((a :: t) ++ [b]) b = true := by
        rw [isMaxIn, List.all_eq_true]
        intro y hy
        rcases List.mem_append.mp hy with hyL | hyb
        · have := hrmax y hyL
          simp only [decide_eq_true_eq]
          omega
        · simp at hyb
          simp [hyb]
      have hfb : List.filter (isMaxIn cnt ((a :: t) ++ [b])) [b] = [b] := by
        simp only [List.filter_cons, List.filter_nil]
        rw [hbtrue]
        simp
      rw [List.filter_append, hfb, List.getLast?_concat, hpick]

theorem pickMax_self {α : Type} (cnt : α → Nat) (k : α) : pickMax cnt k k = k := by
  rw [pickMax]
  split
  · rfl
  · rfl

theorem reduceMaxKey_eq_noInit {α : Type} [DecidableEq α] (counts : List (α × Nat)) :
    reduceMaxKey counts = reduceMaxKeyNoInit counts := by
  cases h : objKeys counts with
  | nil => simp [reduceMaxKey, reduceMaxKeyNoInit, h]
  | cons k0 rest =>
    simp [reduceMaxKey, reduceMaxKeyNoInit, h, List.foldl_cons, pickMax_self]

theorem reduceMaxKeyNoInit_buildCounts {α : Type} [DecidableEq α] (tags : List α) :
    reduceMaxKeyNoInit (buildCounts tags) = specLastMax tags := by
  have hkeys := objKeys_buildCounts tags
  have hcnt : countOf (buildCounts tags) = fun k => tags.count k := by
    funext k
    exact countOf_buildCounts tags k
  cases h : keysInOrder tags with
  | nil =>
    simp only [reduceMaxKeyNoInit, specLastMax, hkeys, h, List.filter_nil,
      List.getLast?_nil]
  | cons k0 rest =>
    simp only [reduceMaxKeyNoInit, specLastMax, hkeys, h, hcnt]
    exact (foldl_pickMax_lastMax (fun k => tags.count k) k0 rest).symm

theorem buildCounts_ne_nil {α : Type} [DecidableEq α] (a : α) (t : List α) :
    buildCounts (a :: t) ≠ [] := by
  intro h
  have hc := countOf_buildCounts (a :: t) a
  rw [h] at hc
  simp only [countOf, List.find?_nil, List.count_cons_self] at hc
  omega

theorem speakerKey_ne_empty (n : Nat) : speakerKey n ≠ "" := by
  intro h
  have hlen := congrArg String.length h
  rw [speakerKey, String.length_append] at hlen
  simp at hlen
  exact absurd hlen.1 (by decide)

/-! ## C4: speaker resolution -/

/-- C4 (counterexample): on the tie `[{speaker:0},{speaker:1}]` the code
resolves "Speaker 1" — the last-encountered tied tag — while the claimed
first-encountered-first-selected rule would resolve "Speaker 0". -/
theorem speaker_tie_counterexample :
    resolveSpeaker [⟨some 0, none⟩, ⟨some 1, none⟩] = "Speaker 1" ∧
    specFirstMax (speakerTags [⟨some 0, none⟩, ⟨some 1, none⟩]) = some "Speaker 0" ∧
    ("Speaker 1" : String) ≠ "Speaker 0" := by
  refine ⟨by decide, by decide, by decide⟩

/-- C4 (amended): the reconciler selects the speaker tag with the highest
occurrence count over the event's words; ties are broken by taking the
LAST tied tag in first-encounter order (not the first); events with no
word-level speaker tags resolve to "Unknown Speaker". -/
theorem speaker_resolution_lastTie (ws : List DgWord) :
    resolveSpeaker ws =
      (match specLastMax (speakerTags ws) with
        | some k => k
        | none => "Unknown Speaker") := by
  have hred : reduceMaxKey (speakerCounts ws) = specLastMax (speakerTags ws) := by
    rw [speakerCounts_eq, reduceMaxKey_eq_noInit, reduceMaxKeyNoInit_buildCounts]
  by_cases hws : 0 < ws.length
  · rw [resolveSpeaker, if_pos hws, hred]
    cases h : specLastMax (speakerTags ws) with
    | none => rfl
    | some k =>
      have hk : k ∈ keysInOrder (speakerTags ws) := by
        have hmem := List.mem_of_getLast?_eq_some
          (show (List.filter
              (isMaxIn (fun k2 => (speakerTags ws).count k2)
                (keysInOrder (speakerTags ws)))
              (keysInOrder (speakerTags ws))).getLast? = some k from h)
        exact (List.mem_filter.mp hmem).1
      have hk2 : k ∈ speakerTags ws := keysInOrder_subset hk
      obtain ⟨w, hw, hwk⟩ := List.mem_filterMap.mp
        (show k ∈ ws.filterMap (fun w => w.speaker.map speakerKey) from hk2)
      obtain ⟨n, hn⟩ : ∃ n, speakerKey n = k := by
        cases hsw : w.speaker with
        | none => rw [hsw] at hwk; simp at hwk
        | some n =>
          rw [hsw] at hwk
          simp at hwk
          exact ⟨n, hwk⟩
      have hne : ¬ k = "" := by
        rw [← hn]
        exact speakerKey_ne_empty n
      simp [hne]
  · rw [resolveSpeaker, if_neg hws]
    have hws0 : ws = [] := by
      cases ws with
      | nil => rfl
      | cons _ _ => simp at hws
    subst hws0
    rfl

/-! ## C5 and C10: language resolution -/

/-- C5: with no word-level language tags, a nonempty detected-languages
sequence resolves to its first element; with word-level language tags
present, the dominant language is recomputed from the word tags — highest
occurrence count, ties by key-encounter order (the last tied key in
first-encounter order) — and this overrides any sequence-level estimate. -/
theorem language_resolution_spec (alt : DgAlt) :
    (languageTags alt.words = [] → ∀ l ls, alt.languages = some (l :: ls) → l ≠ "" →
      resolveLanguage alt = l) ∧
    (languageTags alt.words ≠ [] →
      some (resolveLanguage alt) = specLastMax (languageTags alt.words)) := by
  constructor
  · intro htags l ls hl hlne
    have hlc : languageCounts alt.words = [] := by
      rw [languageCounts_eq, htags]
      rfl
    by_cases hw : 0 < alt.words.length
    · simp [resolveLanguage, hlc, hl, hlne, hw]
    · simp [resolveLanguage, hl, hlne, hw]
  · intro htags
    obtain ⟨a, t, hat⟩ : ∃ a t, languageTags alt.words = a :: t := by
      cases h : languageTags alt.words with
      | nil => exact absurd h htags
      | cons a t => exact ⟨a, t, rfl⟩
    have hlcne : languageCounts alt.words ≠ [] := by
      rw [languageCounts_eq, hat]
      exact buildCounts_ne_nil a t
    have hwne : alt.words ≠ [] := by
      intro h
      rw [h] at hat
      simp [languageTags] at hat
    have hw : 0 < alt.words.length := by
      cases hx : alt.words with
      | nil => exact absurd hx hwne
      | cons _ _ => simp
    have hlen : 0 < (languageCounts alt.words).length := by
      cases hx : languageCounts alt.words with
      | nil => exact absurd hx hlcne
      | cons _ _ => simp
    have hspec : reduceMaxKeyNoInit (languageCounts alt.words) =
        specLastMax (languageTags alt.words) := by
      rw [languageCounts_eq, reduceMaxKeyNoInit_buildCounts]
    obtain ⟨v, hv⟩ : ∃ v, reduceMaxKeyNoInit (languageCounts alt.words) = some v := by
      rw [reduceMaxKeyNoInit]
      cases h : objKeys (languageCounts alt.words) with
      | nil =>
        exfalso
        cases hcc : languageCounts alt.words with
        | nil => exact hlcne hcc
        | cons p r =>
          rw [hcc] at h
          simp [objKeys] at h
      | cons k0 rest => exact ⟨_, rfl⟩
    rw [resolveLanguage]
    rw [if_pos hw, if_pos hlen, hv, Option.getD_some]
    exact (hspec.symm.trans hv).symm

/-- Witness for C5: sequence ["es","en"] alone resolves to "es"; adding
word tags en,en,es resolves to "en". -/
theorem language_resolution_spec_witness :
    resolveLanguage ⟨"hola", [], some ["es", "en"]⟩ = "es" ∧
    resolveLanguage ⟨"hello",
      [⟨none, some "en"⟩, ⟨none, some "en"⟩, ⟨none, some "es"⟩],
      some ["es", "en"]⟩ = "en" := by
  constructor
  · exact (language_resolution_spec ⟨"hola", [], some ["es", "en"]⟩).1 rfl
      "es" ["en"] rfl (by decide)
  · have h := (language_resolution_spec ⟨"hello",
      [⟨none, some "en"⟩, ⟨none, some "en"⟩, ⟨none, some "es"⟩],
      some ["es", "en"]⟩).2 (by decide)
    have hs : specLastMax (languageTags
        [⟨none, some "en"⟩, ⟨none, some "en"⟩, ⟨none, some "es"⟩]) =
        some "en" := by decide
    rw [hs] at h
    exact Option.some.inj h

/-- C10: a Results event with nonempty transcript, no alternative-level
languages array and no word-level language tags still yields an utterance
record with a defined language: the default "en", with an empty
detected-languages list. -/
theorem default_language_en (alt : DgAlt) (i : Bool) (ht : alt.transcript ≠ "")
    (hl : alt.languages = none) (hw : ∀ w ∈ alt.words, w.language = none) :
    ∃ u, processResults alt i = some u ∧ u.language = "en" ∧
      u.detectedLanguages = [] := by
  have htags : languageTags alt.words = [] := by
    rw [languageTags, List.filterMap_eq_nil_iff]
    intro w hmem
    rw [hw w hmem]
  have hlc : languageCounts alt.words = [] := by
    rw [languageCounts_eq, htags]
    rfl
  have hlang : resolveLanguage alt = "en" := by
    by_cases hwl : 0 < alt.words.length
    · simp [resolveLanguage, hl, hlc, hwl]
    · simp [resolveLanguage, hl, hwl]
  refine ⟨(⟨i, alt.transcript, resolveSpeaker alt.words, resolveLanguage alt,
      alt.languages.getD []⟩ : Utterance), ?_, hlang, ?_⟩
  · rw [processResults, if_neg ht]
  · rw [hl]
    rfl

/-- Witness for C10 at a concrete event. -/
theorem default_language_en_witness :
    ∃ u, processResults ⟨"hi", [], none⟩ true = some u ∧ u.language = "en" ∧
      u.detectedLanguages = [] :=
  default_language_en ⟨"hi", [], none⟩ true (by decide) rfl (by simp)

/-! ## C6: float to int16 conversion -/

theorem clampUnit_mem (x : ℚ) : -1 ≤ clampUnit x ∧ clampUnit x ≤ 1 := by
  constructor
  · exact le_max_left _ _
  · rw [clampUnit]
    exact max_le (by norm_num) (min_le_left _ _)

theorem clampUnit_of_mem {y : ℚ} (h1 : -1 ≤ y) (h2 : y ≤ 1) : clampUnit y = y := by
  rw [clampUnit, min_eq_right h2, max_eq_right h1]

theorem truncQ_intCast (z : ℤ) : truncQ (z : ℚ) = z := by
  rw [truncQ]
  by_cases h : (z : ℚ) < 0
  · rw [if_pos h, Int.ceil_intCast]
  · rw [if_neg h, Int.floor_intCast]

/-- C6: the conversion clamps to [-1,1] (re-clamping is a no-op), scales
negative samples by 32768 and non-negative ones by 32767, lands in the
signed 16-bit range, maps 1.0 to 32767, -1.0 to -32768 and 0.0 to 0, and
serialises little-endian (low byte first). -/
theorem float_to_16bit_spec :
    float16Sample 1 = 32767 ∧ float16Sample (-1) = -32768 ∧ float16Sample 0 = 0 ∧
    (∀ x : ℚ, float16Sample x = float16Sample (clampUnit x)) ∧
    (∀ x : ℚ, -32768 ≤ float16Sample x ∧ float16Sample x ≤ 32767) ∧
    floatTo16BitPCM [1, -1, 0] = [255, 127, 0, 128, 0, 0] := by
  have hc1 : clampUnit 1 = 1 := clampUnit_of_mem (by norm_num) (by norm_num)
  have hcm1 : clampUnit (-1) = -1 := clampUnit_of_mem (by norm_num) (by norm_num)
  have hc0 : clampUnit 0 = 0 := clampUnit_of_mem (by norm_num) (by norm_num)
  have hv1 : float16Sample 1 = 32767 := by
    simp only [float16Sample, hc1]
    rw [if_neg (by norm_num : ¬ (1 : ℚ) < 0)]
    have he : ((1 : ℚ) * 32767) = ((32767 : ℤ) : ℚ) := by norm_num
    rw [he, truncQ_intCast]
  have hvm1 : float16Sample (-1) = -32768 := by
    simp only [float16Sample, hcm1]
    rw [if_pos (by norm_num : (-1 : ℚ) < 0)]
    have he : ((-1 : ℚ) * 32768) = ((-32768 : ℤ) : ℚ) := by norm_num
    rw [he, truncQ_intCast]
  have hv0 : float16Sample 0 = 0 := by
    simp only [float16Sample, hc0]
    rw [if_neg (by norm_num : ¬ (0 : ℚ) < 0)]
    have he : ((0 : ℚ) * 32767) = ((0 : ℤ) : ℚ) := by norm_num
    rw [he, truncQ_intCast]
  refine ⟨hv1, hvm1, hv0, ?_, ?_, ?_⟩
  · intro x
    simp only [float16Sample,
      clampUnit_of_mem (clampUnit_mem x).1 (clampUnit_mem x).2]
  · intro x
    obtain ⟨hlo, hhi⟩ := clampUnit_mem x
    simp only [float16Sample]
    by_cases hs : clampUnit x < 0
    · rw [if_pos hs]
      have hq0 : clampUnit x * 32768 < 0 := mul_neg_of_neg_of_pos hs (by norm_num)
      rw [truncQ, if_pos hq0]
      constructor
      · have h1 : (-32768 : ℚ) ≤ clampUnit x * 32768 := by nlinarith
        have h2 : ((-32768 : ℤ) : ℚ) ≤ clampUnit x * 32768 := by exact_mod_cast h1
        have := Int.ceil_le_ceil h2
        simpa using this
      · have : ⌈clampUnit x * 32768⌉ ≤ 0 := by
          rw [Int.ceil_le]
          push_cast
          linarith
        omega
    · rw [if_neg hs]
      push_neg at hs
      have hq0 : ¬ clampUnit x * 32767 < 0 := by nlinarith
      rw [truncQ, if_neg hq0]
      constructor
      · have : (0 : ℤ) ≤ ⌊clampUnit x * 32767⌋ := by
          rw [Int.floor_nonneg]
          nlinarith
        omega
      · have h1 : clampUnit x * 32767 ≤ ((32767 : ℤ) : ℚ) := by
          push_cast
          nlinarith
        have := Int.floor_le_floor h1
        simpa using this
  · rw [floatTo16BitPCM]
    simp only [List.map_cons, List.map_nil, hv1, hvm1, hv0]
    decide

/-! ## C2: resampler output length -/

theorem jsRound_floor (q : ℚ) : jsRound q = ⌊q + 1/2⌋ :=
  (Rat.floor_def' _).trans Rat.floor_def.symm

theorem jsRound_natCast (n : Nat) : jsRound (n : ℚ) = n := by
  rw [jsRound_floor, Int.floor_eq_iff]
  constructor
  · push_cast
    linarith
  · push_cast
    linarith

theorem downsampleLoop_length (buffer : List ℚ) (ratio : ℚ) :
    ∀ (remaining offsetResult offsetBuffer : Nat),
      (downsampleLoop buffer ratio offsetResult offsetBuffer remaining).length =
        remaining := by
  intro remaining
  induction remaining with
  | zero => intro oR oB; rfl
  | succ n ih =>
    intro oR oB
    simp only [downsampleLoop, List.length_cons, ih]

/-- C2: with source rate at least the (positive) target rate the resampler
returns a buffer of length `round(inputLength / (sourceRate/targetRate))`;
with source rate below the target rate it fails with the upsampling
precondition error. -/
theorem downsample_length_spec (b : List ℚ) (sr out : Nat) (hpos : 0 < out) :
    (out ≤ sr → ∃ r, downsampleBuffer b sr out = Except.ok r ∧
      r.length = (jsRound ((b.length : ℚ) / ((sr : ℚ) / (out : ℚ)))).toNat) ∧
    (sr < out → downsampleBuffer b sr out =
      Except.error "Downsampling rate should be smaller than original") := by
  constructor
  · intro hle
    by_cases heq : out = sr
    · subst heq
      refine ⟨b, by rw [downsampleBuffer, if_pos rfl], ?_⟩
      have hout : ((out : ℚ) / (out : ℚ)) = 1 := div_self (by positivity)
      rw [hout, div_one, jsRound_natCast, Int.toNat_natCast]
    · have hlt : ¬ sr < out := by omega
      refine ⟨downsampleLoop b ((sr : ℚ) / (out : ℚ)) 0 0
        ((jsRound ((b.length : ℚ) / ((sr : ℚ) / (out : ℚ)))).toNat), ?_, ?_⟩
      · rw [downsampleBuffer, if_neg heq, if_neg hlt]
      · rw [downsampleLoop_length]

  · intro hlt
    have hne : ¬ out = sr := by omega
    rw [downsampleBuffer, if_neg hne, if_pos hlt]

/-- Witness for C2: downsampling 4 samples from 32000 Hz to 16000 Hz yields
round(4/2) = 2 samples; "downsampling" from 8000 Hz to 16000 Hz errors. -/
theorem downsample_length_spec_witness :
    (∃ r, downsampleBuffer [1, 2, 3, 4] 32000 16000 = Except.ok r ∧
      r.length = (jsRound ((([1, 2, 3, 4] : List ℚ).length : ℚ) /
        ((32000 : ℚ) / (16000 : ℚ)))).toNat) ∧
    downsampleBuffer [1, 2, 3, 4] 8000 16000 =
      Except.error "Downsampling rate should be smaller than original" :=
  ⟨(downsample_length_spec [1, 2, 3, 4] 32000 16000 (by norm_num)).1 (by norm_num),
    (downsample_length_spec [1, 2, 3, 4] 8000 16000 (by norm_num)).2 (by norm_num)⟩

/-! ## C7: each output sample is the mean of its proportional window -/

theorem downsampleLoop_getElem (buffer : List ℚ) (ratio : ℚ) :
    ∀ (remaining j k : Nat), k < remaining →
      (downsampleLoop buffer ratio j ((jsRound ((j : ℚ) * ratio)).toNat) remaining)[k]? =
        some ((windowAt buffer ratio (j + k)).sum /
          (if (windowAt buffer ratio (j + k)).length = 0 then 1
            else ((windowAt buffer ratio (j + k)).length : ℚ))) := by
  intro remaining
  induction remaining with
  | zero => intro j k hk; omega
  | succ n ih =>
    intro j k hk
    cases k with
    | zero =>
      simp only [downsampleLoop, List.getElem?_cons_zero, Nat.add_zero]
      rfl
    | succ k' =>
      have harith : j + (k' + 1) = (j + 1) + k' := by omega
      simp only [downsampleLoop, List.getElem?_cons_succ]
      rw [harith]
      have hnext : (jsRound (((j : ℚ) + 1) * ratio)).toNat =
          (jsRound (((j + 1 : Nat) : ℚ) * ratio)).toNat := by
        push_cast
        rfl
      rw [hnext]
      exact ih (j + 1) k' (by omega)

theorem windowAt_ne_nil (b : List ℚ) (ratio : ℚ) (hratio : 1 ≤ ratio) (k : Nat)
    (hk : k < (jsRound ((b.length : ℚ) / ratio)).toNat) :
    windowAt b ratio k ≠ [] := by
  have hr0 : (0 : ℚ) < ratio := lt_of_lt_of_le one_pos hratio
  have hkz : (k : ℤ) < jsRound ((b.length : ℚ) / ratio) := by omega
  have hfl : ((jsRound ((b.length : ℚ) / ratio) : ℤ) : ℚ) ≤ (b.length : ℚ) / ratio + 1/2 := by
    rw [jsRound_floor]
    exact Int.floor_le _
  have hk1 : (k : ℚ) + 1 ≤ (b.length : ℚ) / ratio + 1/2 := by
    have : ((k : ℤ) : ℚ) + 1 ≤ ((jsRound ((b.length : ℚ) / ratio) : ℤ) : ℚ) := by
      exact_mod_cast hkz
    push_cast at this ⊢
    linarith
  have hmul : ((k : ℚ) + 1/2) * ratio ≤ (b.length : ℚ) := by
    rw [← le_div_iff₀ hr0]
    linarith
  -- the window start: A := k * ratio + 1/2, s := ⌊A⌋
  have hA_le : (k : ℚ) * ratio + 1/2 ≤ (b.length : ℚ) := by nlinarith
  have hA_nonneg : (0 : ℚ) ≤ (k : ℚ) * ratio + 1/2 := by positivity
  have hs_nonneg : 0 ≤ jsRound ((k : ℚ) * ratio) := by
    rw [jsRound_floor, Int.floor_nonneg]
    exact hA_nonneg
  have hs_le : jsRound ((k : ℚ) * ratio) ≤ (b.length : ℤ) := by
    rw [jsRound_floor]
    have := Int.floor_le_floor hA_le
    rwa [Int.floor_natCast] at this
  have hs_lt : jsRound ((k : ℚ) * ratio) < (b.length : ℤ) := by
    rcases lt_or_eq_of_le hs_le with h | h
    · exact h
    · exfalso
      have hge : ((b.length : ℤ) : ℚ) ≤ (k : ℚ) * ratio + 1/2 := by
        rw [← h, jsRound_floor]
        exact Int.le_floor.mp (le_of_eq rfl)
      push_cast at hge
      have hAeq : (k : ℚ) * ratio + 1/2 = (b.length : ℚ) := le_antisymm hA_le hge
      have hr1 : ratio ≤ 1 := by nlinarith
      have hreq : ratio = 1 := le_antisymm hr1 hratio
      rw [hreq, mul_one] at hAeq
      have h2 : ((2 * k + 1 : Nat) : ℚ) = ((2 * b.length : Nat) : ℚ) := by
        push_cast
        linarith
      have := Nat.cast_injective h2
      omega
  have hst : jsRound ((k : ℚ) * ratio) + 1 ≤ jsRound (((k : ℚ) + 1) * ratio) := by
    rw [jsRound_floor, jsRound_floor]
    have hadd : (k : ℚ) * ratio + 1/2 + 1 ≤ ((k : ℚ) + 1) * ratio + 1/2 := by nlinarith
    have := Int.floor_le_floor hadd
    rwa [Int.floor_add_one] at this
  rw [windowAt, ← List.length_pos, List.length_take, List.length_drop, Nat.lt_min]
  omega

/-- C7: for every valid rate pair, every sample of the resampler's output
is the arithmetic mean of the (nonempty) window of source samples between
`round(k·ratio)` and `round((k+1)·ratio)`, clipped to the buffer. -/
theorem downsample_mean_spec (b : List ℚ) (sr out : Nat) (hpos : 0 < out)
    (hle : out ≤ sr) (r : List ℚ) (hr : downsampleBuffer b sr out = Except.ok r)
    (k : Nat) (hk : k < r.length) :
    windowAt b ((sr : ℚ) / (out : ℚ)) k ≠ [] ∧
    r[k]? = some ((windowAt b ((sr : ℚ) / (out : ℚ)) k).sum /
      ((windowAt b ((sr : ℚ) / (out : ℚ)) k).length : ℚ)) := by
  have houtQ : (0 : ℚ) < (out : ℚ) := by exact_mod_cast hpos
  have hratio : 1 ≤ (sr : ℚ) / (out : ℚ) := by
    rw [le_div_iff₀ houtQ, one_mul]
    exact_mod_cast hle
  by_cases heq : out = sr
  · subst heq
    have hone : ((out : ℚ) / (out : ℚ)) = 1 := div_self (ne_of_gt houtQ)
    have hrb : r = b := by
      rw [downsampleBuffer, if_pos rfl] at hr
      exact (Except.ok.inj hr).symm
    subst hrb
    rw [hone]
    have hs : (jsRound ((k : ℚ) * 1)).toNat = k := by
      rw [mul_one, jsRound_natCast, Int.toNat_natCast]
    have ht : (jsRound (((k : ℚ) + 1) * 1)).toNat = k + 1 := by
      rw [mul_one]
      have hcast : ((k : ℚ) + 1) = ((k + 1 : Nat) : ℚ) := by push_cast; ring
      rw [hcast, jsRound_natCast, Int.toNat_natCast]
    have hwin : windowAt r 1 k = [r[k]] := by
      rw [windowAt, hs, ht]
      have h1 : k + 1 - k = 1 := by omega
      rw [h1, List.drop_eq_getElem_cons hk]
      rfl
    rw [hwin]
    refine ⟨by simp, ?_⟩
    rw [List.getElem?_eq_getElem hk]
    simp
  · have hlt : ¬ sr < out := by omega
    rw [downsampleBuffer, if_neg heq, if_neg hlt] at hr
    have hrl : r = downsampleLoop b ((sr : ℚ) / (out : ℚ)) 0 0
        ((jsRound ((b.length : ℚ) / ((sr : ℚ) / (out : ℚ)))).toNat) :=
      (Except.ok.inj hr).symm
    have hlen : r.length =
        (jsRound ((b.length : ℚ) / ((sr : ℚ) / (out : ℚ)))).toNat := by
      rw [hrl, downsampleLoop_length]
    have hkn : k < (jsRound ((b.length : ℚ) / ((sr : ℚ) / (out : ℚ)))).toNat := by
      omega
    have hne := windowAt_ne_nil b ((sr : ℚ) / (out : ℚ)) hratio k hkn
    refine ⟨hne, ?_⟩
    have hW := downsampleLoop_getElem b ((sr : ℚ) / (out : ℚ))
      ((jsRound ((b.length : ℚ) / ((sr : ℚ) / (out : ℚ)))).toNat) 0 k hkn
    have h00 : (jsRound (((0 : Nat) : ℚ) * ((sr : ℚ) / (out : ℚ)))).toNat = 0 := by
      have hz : (((0 : Nat) : ℚ) * ((sr : ℚ) / (out : ℚ))) = ((0 : Nat) : ℚ) := by
        push_cast
        ring
      rw [hz, jsRound_natCast]
      rfl
    rw [h00] at hW
    simp only [Nat.zero_add] at hW
    have hlne : ¬ (windowAt b ((sr : ℚ) / (out : ℚ)) k).length = 0 := by
      rw [List.length_eq_zero]
      exact hne
    rw [if_neg hlne] at hW
    rw [hrl]
    exact hW

/-- Witness for C7 at a concrete buffer and rate pair. -/
theorem downsample_mean_spec_witness :
    windowAt [1, 2, 3, 4] (((16000 : Nat) : ℚ) / ((16000 : Nat) : ℚ)) 0 ≠ [] ∧
    ([1, 2, 3, 4] : List ℚ)[0]? =
      some ((windowAt [1, 2, 3, 4] (((16000 : Nat) : ℚ) / ((16000 : Nat) : ℚ)) 0).sum /
        ((windowAt [1, 2, 3, 4] (((16000 : Nat) : ℚ) / ((16000 : Nat) : ℚ)) 0).length : ℚ)) :=
  downsample_mean_spec [1, 2, 3, 4] 16000 16000 (by norm_num) (by norm_num)
    [1, 2, 3, 4] (by rw [downsampleBuffer, if_pos rfl]) 0 (by norm_num)

end Gmeet
